import Mathlib

/-!
Verification of `src/script/crawl-libreoffice.js` (vandrite-dictionaries).

The script downloads LibreOffice dictionary files, normalizes their text,
and persists them together with license/provenance stamps.  We embed the
text transformations as functions on `List Char` and the effectful
acquisition pipeline (`processDictionary`, `main` loop) as a function from
an explicit environment (`World`) to the list of observable events it
performs, mirroring the JavaScript control flow statement by statement.
-/

set_option autoImplicit false
set_option maxHeartbeats 1000000

namespace Vandrite

/-- The byte-order-mark character removed by the first replace of
`normalizeContent` (line 226). -/
def bomChar : Char := '\uFEFF'

/-- JavaScript `LineTerminator` characters: LF, CR, LINE SEPARATOR and
PARAGRAPH SEPARATOR.  These are the characters at which `$`/`^` match in
a multiline regex and which `.` does not match. -/
def isTerm (c : Char) : Bool :=
  c = '\n' || c = '\r' || c = '\u2028' || c = '\u2029'

/-- Horizontal whitespace matched by `[ \t]` in the trailing-whitespace
replace of `normalizeContent` (line 229). -/
def isWS (c : Char) : Bool := c = ' ' || c = '\t'

/-- The first replace of line 226: remove one leading
byte-order mark, if present. -/
def stripBOM : List Char → List Char
  | [] => []
  | c :: cs => if c = bomChar then cs else c :: cs

/-- `content.replace(/\r\n/g, '\n')` (line 227): every CRLF pair becomes a
single LF, scanning left to right without overlap. -/
def replaceCRLF : List Char → List Char
  | [] => []
  | [c] => [c]
  | c :: d :: r =>
    if c = '\r' ∧ d = '\n' then '\n' :: replaceCRLF r
    else c :: replaceCRLF (d :: r)

/-- `content.replace(/\r/g, '\n')` (line 228): every remaining CR becomes
an LF. -/
def replaceCR (l : List Char) : List Char :=
  l.map (fun c => if c = '\r' then '\n' else c)

/-- Worker for the `/[ \t]+$/gm` replace (line 229).  `p` is the run of
spaces/tabs read so far whose fate is still unknown: it is dropped when a
line terminator or the end of input follows (the run matched `[ \t]+$`)
and flushed before any other character. -/
def stripAux : List Char → List Char → List Char
  | _, [] => []
  | p, c :: cs =>
    if isWS c then stripAux (p ++ [c]) cs
    else if isTerm c then c :: stripAux [] cs
    else p ++ c :: stripAux [] cs

/-- `content.replace(/[ \t]+$/gm, '')` (line 229): delete every run of
spaces/tabs that sits immediately before a line terminator or the end of
the input. -/
def stripTrailingWS (l : List Char) : List Char := stripAux [] l

/-- Remove the maximal run of `'\n'` characters at the end of the list. -/
def dropTrailLF : List Char → List Char
  | [] => []
  | c :: cs =>
    match dropTrailLF cs with
    | [] => if c = '\n' then [] else [c]
    | r => c :: r

/-- `content.replace(/\n*$/, '\n')` (line 230): the (possibly empty) run
of trailing linefeeds is replaced by exactly one linefeed. -/
def ensureFinalNewline (l : List Char) : List Char := dropTrailLF l ++ ['\n']

/-- `normalizeContent` (lines 224-231): the five replaces in source
order. -/
def normalizeContent (l : List Char) : List Char :=
  ensureFinalNewline (stripTrailingWS (replaceCR (replaceCRLF (stripBOM l))))

example : normalizeContent "a \r\nb\r".data = "a\nb\n".data := by decide
example : normalizeContent "".data = "\n".data := by decide
example : normalizeContent "x\n\n\n".data = "x\n".data := by decide
example : normalizeContent [bomChar, bomChar] = [bomChar, '\n'] := by decide
example :
    normalizeContent (normalizeContent [bomChar, bomChar]) = ['\n'] := by decide

/-- `!isTerm c`, the character class matched by `.` (and skipped over by a
line scan) in the two multiline regexes of the script. -/
def notTerm (c : Char) : Bool := !(isTerm c)

/-- The replacement text of `content.replace(/^SET .*`/m, 'SET UTF-8')`
(line 281). -/
def utf8Line : List Char := "SET UTF-8".data

/-- The four characters a line must start with to match `^SET ` in the
encoding rewrite (line 281). -/
def setToken : List Char := "SET ".data

/-- Scan for the single replace of line 281.  `atStart` records whether
the current position is a line start (position 0, or right after any line
terminator), where `^` matches in a multiline regex.  At the first line
start whose next four characters are `SET `, the whole line body (the
maximal run of non-terminator characters, what `.*` matches) is replaced
by `SET UTF-8` and the remainder is kept untouched; otherwise the scan
moves one character. -/
def setRepAux : Bool → List Char → List Char
  | _, [] => []
  | atStart, c :: cs =>
    if atStart ∧ (c :: cs).take 4 = setToken then
      utf8Line ++ ((c :: cs).drop 4).dropWhile notTerm
    else if isTerm c then c :: setRepAux true cs
    else c :: setRepAux false cs

/-- `content.replace(/^SET .*` with flag `m`, replaced by `SET UTF-8')`
(line 281): the first line beginning with `SET ` has its line body
replaced by `SET UTF-8`; a text with no such line is returned
unchanged. -/
def setReplace (s : List Char) : List Char := setRepAux true s

/-- The affix content as persisted to `index.aff` (lines 279-283): the
`SET` pragma rewrite applied to the raw fetched text, then
`normalizeContent`. -/
def processedAff (s : List Char) : List Char := normalizeContent (setReplace s)

example : setReplace "SET ISO8859-1\nFLAG x".data = "SET UTF-8\nFLAG x".data := by decide
example : setReplace "# c\nSET KOI8-R\nx".data = "# c\nSET UTF-8\nx".data := by decide
example : setReplace "TRY abc\n".data = "TRY abc\n".data := by decide
example :
    setReplace (bomChar :: "SET ISO8859-1\nx".data)
      = bomChar :: "SET ISO8859-1\nx".data := by decide

/-! ### Catalog and acquisition model -/

/-- One entry of `LIBREOFFICE_DICTIONARIES` (lines 17-214).  `dicPath` and
`affPath` are the optional filename overrides (`dicPath`/`affPath` in the
source); a missing field is `none`. -/
structure Dict where
  code : String
  folder : String
  name : String
  license : String
  licenseFile : String
  dicPath : Option String := none
  affPath : Option String := none
deriving DecidableEq

/-- `LIBREOFFICE_DICTIONARIES` (lines 17-214), transcribed entry by
entry. -/
def LIBREOFFICE_DICTIONARIES : List Dict :=
  [ { code := "af", folder := "af_ZA", name := "Afrikaans",
      license := "LGPL-3.0", licenseFile := "README_af_ZA.txt" },
    { code := "an", folder := "an_ES", name := "Aragonese",
      license := "GPL-3.0", licenseFile := "LICENSES-en.txt" },
    { code := "ar", folder := "ar", name := "Arabic",
      license := "GPL-3.0", licenseFile := "COPYING.txt" },
    { code := "as", folder := "as_IN", name := "Assamese",
      license := "GPL-2.0", licenseFile := "COPYING" },
    { code := "be", folder := "be_BY", name := "Belarusian",
      license := "GPL-3.0", licenseFile := "README_be_BY.txt",
      dicPath := some "be-official.dic", affPath := some "be-official.aff" },
    { code := "bn", folder := "bn_BD", name := "Bengali",
      license := "GPL-2.0", licenseFile := "COPYING" },
    { code := "bo", folder := "bo", name := "Tibetan",
      license := "GPL-3.0", licenseFile := "LICENSE-en.txt" },
    { code := "bs", folder := "bs_BA", name := "Bosnian",
      license := "GPL-3.0", licenseFile := "registration/LICENSE" },
    { code := "ckb", folder := "ckb", name := "Central Kurdish",
      license := "GPL-3.0", licenseFile := "LICENSES-en.txt",
      dicPath := some "dictionaries/ckb.dic",
      affPath := some "dictionaries/ckb.aff" },
    { code := "gu", folder := "gu_IN", name := "Gujarati",
      license := "GPL-3.0", licenseFile := "COPYING" },
    { code := "gug", folder := "gug", name := "Guarani",
      license := "GPL-3.0", licenseFile := "LICENSE.txt" },
    { code := "hi", folder := "hi_IN", name := "Hindi",
      license := "GPL-2.0", licenseFile := "COPYING" },
    { code := "id", folder := "id", name := "Indonesian",
      license := "GPL-3.0", licenseFile := "LICENSE-dict",
      dicPath := some "id_ID.dic", affPath := some "id_ID.aff" },
    { code := "it", folder := "it_IT", name := "Italian",
      license := "GPL-3.0", licenseFile := "README_it_IT.txt" },
    { code := "kn", folder := "kn_IN", name := "Kannada",
      license := "GPL-3.0", licenseFile := "COPYING" },
    { code := "kmr-Latn", folder := "kmr_Latn", name := "Kurmanji",
      license := "GPL-3.0", licenseFile := "gpl-3.0.txt" },
    { code := "lo", folder := "lo_LA", name := "Lao",
      license := "GPL-3.0", licenseFile := "README_lo_LA.txt" },
    { code := "mr", folder := "mr_IN", name := "Marathi",
      license := "LGPL-3.0", licenseFile := "README_mr_IN.txt" },
    { code := "or", folder := "or_IN", name := "Odia",
      license := "GPL-2.0", licenseFile := "COPYING" },
    { code := "pa", folder := "pa_IN", name := "Punjabi",
      license := "GPL-2.0", licenseFile := "COPYING" },
    { code := "sa", folder := "sa_IN", name := "Sanskrit",
      license := "GPL-3.0", licenseFile := "COPYING" },
    { code := "si", folder := "si_LK", name := "Sinhala",
      license := "GPL-3.0", licenseFile := "COPYING" },
    { code := "sq", folder := "sq_AL", name := "Albanian",
      license := "GPL-3.0", licenseFile := "README_sq_AL.txt" },
    { code := "sw", folder := "sw_TZ", name := "Swahili",
      license := "LGPL-3.0", licenseFile := "README_sw_TZ.txt" },
    { code := "ta", folder := "ta_IN", name := "Tamil",
      license := "GPL-3.0", licenseFile := "COPYING" },
    { code := "te", folder := "te_IN", name := "Telugu",
      license := "GPL-2.0", licenseFile := "COPYING" },
    { code := "th", folder := "th_TH", name := "Thai",
      license := "LGPL-2.1", licenseFile := "README_th_TH.txt" } ]

/-- `LIBREOFFICE_BASE_URL` (lines 216-217). -/
def LIBREOFFICE_BASE_URL : String :=
  "https://raw.githubusercontent.com/LibreOffice/dictionaries/master"

/-- The `.source` stamp content (lines 296-300). -/
def sourceStamp : List Char :=
  "https://github.com/LibreOffice/dictionaries\n".data

/-- Line 252-253: `dict.dicPath || (folder.includes('_') ? folder : folder) + '.dic'`,
including the dead conditional of the source. -/
def resolveDicFile (d : Dict) : String :=
  d.dicPath.getD ((if d.folder.data.contains '_' then d.folder else d.folder) ++ ".dic")

/-- Line 254-255: the affix filename, resolved the same way. -/
def resolveAffFile (d : Dict) : String :=
  d.affPath.getD ((if d.folder.data.contains '_' then d.folder else d.folder) ++ ".aff")

/-- `dicUrl` (line 258). -/
def dicUrlOf (d : Dict) : String :=
  LIBREOFFICE_BASE_URL ++ "/" ++ d.folder ++ "/" ++ resolveDicFile d

/-- `affUrl` (line 274). -/
def affUrlOf (d : Dict) : String :=
  LIBREOFFICE_BASE_URL ++ "/" ++ d.folder ++ "/" ++ resolveAffFile d

/-- `licenseUrl` (line 304). -/
def licUrlOf (d : Dict) : String :=
  LIBREOFFICE_BASE_URL ++ "/" ++ d.folder ++ "/" ++ d.licenseFile

/-- `destDir` (line 238): `path.join(DICTIONARIES_DIR, dict.code)`, with
the dictionaries root abstracted as `root` (its concrete value depends on
the process's filesystem location). -/
def destDirOf (root : String) (d : Dict) : String := root ++ "/" ++ d.code

/-- Outcome of one `fetch` call: a successful response whose text is
`body`, a response with `ok` false (non-success HTTP status), or a
transport-level rejection. -/
inductive FetchRes where
  | ok (body : List Char)
  | httpStatus (status : Nat)
  | netFail (msg : String)
deriving DecidableEq

/-- Observable calls of one run, in program order: an `existsSync` check,
a `fs.mkdir`, a network `fetch`, and a successful `fs.writeFile` with the
persisted content. -/
inductive Ev where
  | stat (p : String)
  | mkdir (p : String)
  | fetch (url : String)
  | write (p : String) (content : List Char)
deriving DecidableEq

/-- The environment a run executes against: which paths `existsSync`
reports present, what each `fetch` returns, and whether `fs.mkdir` /
`fs.writeFile` raise (`some msg`) or succeed (`none`).  A failed write
produces no `Ev.write` event (no content persisted). -/
structure World where
  fileExists : String → Bool
  fetch : String → FetchRes
  mkdirFail : String → Option String
  writeFail : String → Option String

/-- `processDictionary` (lines 237-318), transcribed branch by branch.
The result is the list of performed calls and, in the second component,
the message of an exception escaping the function (only `fs.mkdir` or the
`.spdx`/`.source` writes can raise past it; the `.dic`, `.aff` and
license steps run inside `try`/`catch`).  A caught `.dic` or `.aff`
failure returns early; a caught license failure falls through. -/
def processDictionary (root : String) (w : World) (d : Dict) :
    List Ev × Option String :=
  let destDir := destDirOf root d
  let dicPath := destDir ++ "/index.dic"
  if w.fileExists dicPath then ([Ev.stat dicPath], none)
  else
    match w.mkdirFail destDir with
    | some msg => ([Ev.stat dicPath, Ev.mkdir destDir], some msg)
    | none =>
      let e2 := [Ev.stat dicPath, Ev.mkdir destDir]
      let e3 := e2 ++ [Ev.fetch (dicUrlOf d)]
      match w.fetch (dicUrlOf d) with
      | FetchRes.httpStatus _ => (e3, none)
      | FetchRes.netFail _ => (e3, none)
      | FetchRes.ok dicBody =>
        match w.writeFail dicPath with
        | some _ => (e3, none)
        | none =>
          let e4 := e3 ++ [Ev.write dicPath (normalizeContent dicBody)]
          let affPath := destDir ++ "/index.aff"
          let e5 := e4 ++ [Ev.fetch (affUrlOf d)]
          match w.fetch (affUrlOf d) with
          | FetchRes.httpStatus _ => (e5, none)
          | FetchRes.netFail _ => (e5, none)
          | FetchRes.ok affBody =>
            match w.writeFail affPath with
            | some _ => (e5, none)
            | none =>
              let e6 := e5 ++ [Ev.write affPath (processedAff affBody)]
              let spdxPath := destDir ++ "/.spdx"
              match w.writeFail spdxPath with
              | some msg => (e6, some msg)
              | none =>
                let e7 := e6 ++ [Ev.write spdxPath (d.license.data ++ ['\n'])]
                let srcPath := destDir ++ "/.source"
                match w.writeFail srcPath with
                | some msg => (e7, some msg)
                | none =>
                  let e8 := e7 ++ [Ev.write srcPath sourceStamp]
                  let e9 := e8 ++ [Ev.fetch (licUrlOf d)]
                  match w.fetch (licUrlOf d) with
                  | FetchRes.httpStatus _ => (e9, none)
                  | FetchRes.netFail _ => (e9, none)
                  | FetchRes.ok licBody =>
                    match w.writeFail (destDir ++ "/license") with
                    | some _ => (e9, none)
                    | none =>
                      (e9 ++ [Ev.write (destDir ++ "/license")
                        (normalizeContent licBody)], none)

/-- The descriptor loop of `main` (lines 339-346): each descriptor is
processed inside `try`/`catch`, so an escaping exception is only logged
and the iteration continues; the batch's calls are the concatenation of
the per-descriptor calls. -/
def runBatch (root : String) (w : World) : List Dict → List Ev
  | [] => []
  | d :: ds => (processDictionary root w d).1 ++ runBatch root w ds

/-- `true` exactly on `Ev.write` events. -/
def isWriteEv : Ev → Bool
  | Ev.write _ _ => true
  | _ => false

/-- The canonical-shape invariant established by the `[ \t]+$` replace: no
space or tab immediately before a line terminator, and no space or tab at
the very end of the text. -/
def okWS : List Char → Bool
  | [] => true
  | [c] => !(isWS c)
  | c :: d :: r => !(isWS c && isTerm d) && okWS (d :: r)

/-- The first linefeed-delimited line of a text. -/
def firstLineOf (l : List Char) : List Char := l.takeWhile (fun c => !(c == '\n'))

/-- Sample descriptors for concrete witnesses. -/
def dictA : Dict :=
  { code := "aa", folder := "aa_AA", name := "Alpha",
    license := "MIT", licenseFile := "COPYING" }

def dictB : Dict :=
  { code := "bb", folder := "bb_BB", name := "Beta",
    license := "MIT", licenseFile := "COPYING" }

def dictC : Dict :=
  { code := "cc", folder := "cc_CC", name := "Gamma",
    license := "MIT", licenseFile := "COPYING" }

/-- A world where every destination already holds `index.dic`. -/
def wAll : World :=
  { fileExists := fun _ => true, fetch := fun _ => FetchRes.httpStatus 404,
    mkdirFail := fun _ => none, writeFail := fun _ => none }

/-- A world where nothing exists yet and every fetch fails at transport
level. -/
def wNoDic : World :=
  { fileExists := fun _ => false, fetch := fun _ => FetchRes.netFail "boom",
    mkdirFail := fun _ => none, writeFail := fun _ => none }

/-- A world where every fetch succeeds except `dictA`'s license file. -/
def wLicFail : World :=
  { fileExists := fun _ => false,
    fetch := fun u =>
      if u = licUrlOf dictA then FetchRes.httpStatus 404
      else FetchRes.ok "word\n".data,
    mkdirFail := fun _ => none, writeFail := fun _ => none }

/-- A world where every fetch succeeds but writing `dictB`'s `.spdx`
stamp raises. -/
def wSpdxFail : World :=
  { fileExists := fun _ => false,
    fetch := fun _ => FetchRes.ok "w\n".data,
    mkdirFail := fun _ => none,
    writeFail := fun p => if p = "root/bb/.spdx" then some "disk full" else none }

/-- The spec's example descriptor for C7. -/
def xxDict : Dict :=
  { code := "xx", folder := "xx_YY", name := "Example",
    license := "GPL-3.0", licenseFile := "COPYING" }

/-! ### Theorems -/

/-- The batch loop distributes over concatenation of the catalog: each
descriptor's calls are independent of the surrounding descriptors. -/
theorem runBatch_append (root : String) (w : World) (ds₁ ds₂ : List Dict) :
    runBatch root w (ds₁ ++ ds₂) = runBatch root w ds₁ ++ runBatch root w ds₂ := by
  induction ds₁ with
  | nil => rfl
  | cons d ds ih => simp [runBatch, ih]

/-! #### Character classes -/

theorem isWS_not_isTerm {c : Char} (h : isWS c = true) : isTerm c = false := by
  have h' : c = ' ' ∨ c = '\t' := by simpa [isWS] using h
  rcases h' with h' | h' <;> subst h' <;> decide

theorem not_cr_of_isTerm_false {c : Char} (h : isTerm c = false) : c ≠ '\r' := by
  intro hc; subst hc; simp [isTerm] at h

theorem not_lf_of_isTerm_false {c : Char} (h : isTerm c = false) : c ≠ '\n' := by
  intro hc; subst hc; simp [isTerm] at h

theorem ne_bom_of_isTerm {c : Char} (h : isTerm c = true) : c ≠ bomChar := by
  intro hc; subst hc; simp [isTerm, bomChar] at h

/-! #### `stripBOM` -/

theorem stripBOM_id {l : List Char} (h : l.head? ≠ some bomChar) :
    stripBOM l = l := by
  cases l with
  | nil => rfl
  | cons c cs =>
    have hc : c ≠ bomChar := by simpa using h
    simp [stripBOM, hc]

theorem stripBOM_head {x : List Char} (h : x.take 2 ≠ [bomChar, bomChar]) :
    (stripBOM x).head? ≠ some bomChar := by
  cases x with
  | nil => simp [stripBOM]
  | cons c cs =>
    by_cases hc : c = bomChar
    · subst hc
      simp only [stripBOM, if_pos rfl]
      cases cs with
      | nil => simp
      | cons d ds =>
        have hd : d ≠ bomChar := by
          intro hd; subst hd; exact h (by simp [List.take])
        simpa using hd
    · simp [stripBOM, hc]

/-! #### `replaceCRLF` -/

theorem replaceCRLF_cons_ne {c : Char} (h : c ≠ '\r') (l : List Char) :
    replaceCRLF (c :: l) = c :: replaceCRLF l := by
  cases l with
  | nil => rfl
  | cons d r => simp [replaceCRLF, h]

theorem replaceCRLF_id {l : List Char} (h : '\r' ∉ l) : replaceCRLF l = l := by
  induction l with
  | nil => rfl
  | cons c cs ih =>
    have hc : c ≠ '\r' := fun hc => h (hc ▸ List.mem_cons_self c cs)
    rw [replaceCRLF_cons_ne hc, ih (fun hm => h (List.mem_cons_of_mem c hm))]

theorem replaceCRLF_append {a : List Char} (b : List Char) (h : '\r' ∉ a) :
    replaceCRLF (a ++ b) = a ++ replaceCRLF b := by
  induction a with
  | nil => rfl
  | cons c a' ih =>
    have hc : c ≠ '\r' := fun hc => h (hc ▸ List.mem_cons_self c a')
    rw [List.cons_append, replaceCRLF_cons_ne hc,
      ih (fun hm => h (List.mem_cons_of_mem c hm))]
    rfl

theorem replaceCRLF_head {l : List Char} (h : l.head? ≠ some bomChar) :
    (replaceCRLF l).head? ≠ some bomChar := by
  match l with
  | [] => simp [replaceCRLF]
  | [c] => simpa [replaceCRLF] using h
  | c :: d :: r =>
    by_cases hc : c = '\r' ∧ d = '\n'
    · simp [replaceCRLF, hc, bomChar]
    · simp only [replaceCRLF, if_neg hc]
      simpa using h

/-! #### `replaceCR` -/

theorem replaceCR_not_mem (l : List Char) : '\r' ∉ replaceCR l := by
  intro h
  rcases List.mem_map.mp h with ⟨a, _, hfa⟩
  by_cases ha : a = '\r' <;> simp [ha] at hfa

theorem replaceCR_id {l : List Char} (h : '\r' ∉ l) : replaceCR l = l := by
  induction l with
  | nil => rfl
  | cons c cs ih =>
    have hc : c ≠ '\r' := fun hc => h (hc ▸ List.mem_cons_self c cs)
    have h2 : replaceCR cs = cs := ih (fun hm => h (List.mem_cons_of_mem c hm))
    simp only [replaceCR, List.map_cons] at h2 ⊢
    rw [if_neg hc, h2]

theorem replaceCR_append (a b : List Char) :
    replaceCR (a ++ b) = replaceCR a ++ replaceCR b :=
  List.map_append _ a b

theorem replaceCR_head {l : List Char} (h : l.head? ≠ some bomChar) :
    (replaceCR l).head? ≠ some bomChar := by
  cases l with
  | nil => simp [replaceCR]
  | cons c cs =>
    have hc : c ≠ bomChar := by simpa using h
    by_cases hr : c = '\r'
    · simp only [replaceCR, List.map_cons, if_pos hr, List.head?_cons]
      exact fun hh => absurd (Option.some.inj hh) (by decide)
    · simp only [replaceCR, List.map_cons, if_neg hr, List.head?_cons]
      exact fun hh => hc (Option.some.inj hh)

/-! #### `stripAux` -/

theorem mem_stripAux {a : Char} :
    ∀ (l p : List Char), a ∈ stripAux p l → a ∈ p ∨ a ∈ l := by
  intro l
  induction l with
  | nil => intro p h; simp [stripAux] at h
  | cons c cs ih =>
    intro p h
    by_cases hw : isWS c = true
    · simp only [stripAux, hw, if_true] at h
      rcases ih (p ++ [c]) h with h' | h'
      · rcases List.mem_append.mp h' with h'' | h''
        · exact Or.inl h''
        · simp at h''; subst h''; exact Or.inr (List.mem_cons_self _ _)
      · exact Or.inr (List.mem_cons_of_mem c h')
    · by_cases ht : isTerm c = true
      · simp only [stripAux, hw, ht, Bool.false_eq_true, if_false, if_true] at h
        rcases List.mem_cons.mp h with h' | h'
        · subst h'; exact Or.inr (List.mem_cons_self _ _)
        · rcases ih [] h' with h'' | h''
          · simp at h''
          · exact Or.inr (List.mem_cons_of_mem c h'')
      · simp only [stripAux, hw, ht, Bool.false_eq_true, if_false] at h
        rcases List.mem_append.mp h with h' | h'
        · exact Or.inl h'
        · rcases List.mem_cons.mp h' with h'' | h''
          · subst h''; exact Or.inr (List.mem_cons_self _ _)
          · rcases ih [] h'' with h3 | h3
            · simp at h3
            · exact Or.inr (List.mem_cons_of_mem c h3)

theorem okWS_cons {c : Char} {t : List Char} (hc : isWS c = false)
    (ht : okWS t = true) : okWS (c :: t) = true := by
  cases t with
  | nil => simp [okWS, hc]
  | cons d r => simp [okWS, hc, ht]

theorem okWS_cons_of_next {c d : Char} {r : List Char}
    (hd : isTerm d = false) (h : okWS (d :: r) = true) :
    okWS (c :: d :: r) = true := by
  simp [okWS, hd, h]

theorem okWS_pair {x y : Char} {r : List Char} (h : okWS (x :: y :: r) = true) :
    (isWS x = false ∨ isTerm y = false) ∧ okWS (y :: r) = true := by
  simpa [okWS] using h

theorem okWS_tail {c : Char} {t : List Char} (h : okWS (c :: t) = true) :
    okWS t = true := by
  cases t with
  | nil => rfl
  | cons d r => exact (okWS_pair h).2

theorem okWS_append_right {a l : List Char} (h : okWS (a ++ l) = true) :
    okWS l = true := by
  induction a with
  | nil => simpa using h
  | cons x a' ih => exact ih (okWS_tail (by simpa using h))

theorem okWS_ws_prefix {p : List Char} {c : Char} {t : List Char}
    (hp : ∀ a ∈ p, isTerm a = false) (hc : isTerm c = false)
    (h : okWS (c :: t) = true) : okWS (p ++ c :: t) = true := by
  induction p with
  | nil => simpa using h
  | cons a p' ih =>
    have hrest : okWS (p' ++ c :: t) = true :=
      ih (fun b hb => hp b (List.mem_cons_of_mem a hb))
    cases hp' : p' with
    | nil =>
      subst hp'
      exact okWS_cons_of_next hc h
    | cons b p'' =>
      subst hp'
      have hb : isTerm b = false := hp b (by simp)
      simpa using okWS_cons_of_next hb (by simpa using hrest)

theorem stripAux_okWS :
    ∀ (l p : List Char), (∀ a ∈ p, isWS a = true) → okWS (stripAux p l) = true := by
  intro l
  induction l with
  | nil => intro p _; simp [stripAux, okWS]
  | cons c cs ih =>
    intro p hp
    by_cases hw : isWS c = true
    · simp only [stripAux, hw, if_true]
      refine ih (p ++ [c]) ?_
      intro a ha
      rcases List.mem_append.mp ha with h' | h'
      · exact hp a h'
      · simp at h'; subst h'; exact hw
    · have hw' : isWS c = false := by simpa using hw
      by_cases ht : isTerm c = true
      · simp only [stripAux, hw, ht, Bool.false_eq_true, if_false, if_true]
        exact okWS_cons hw' (ih [] (by simp))
      · simp only [stripAux, hw, ht, Bool.false_eq_true, if_false]
        have hterm : ∀ a ∈ p, isTerm a = false := fun a ha => isWS_not_isTerm (hp a ha)
        exact okWS_ws_prefix hterm (by simpa using ht)
          (okWS_cons hw' (ih [] (by simp)))

theorem okWS_all_ws_nil :
    ∀ {p : List Char}, (∀ a ∈ p, isWS a = true) → okWS p = true → p = [] := by
  intro p
  induction p with
  | nil => intro _ _; rfl
  | cons a p' ih =>
    intro hp hok
    cases p' with
    | nil =>
      have : isWS a = true := hp a (by simp)
      simp [okWS, this] at hok
    | cons b p'' =>
      have : b :: p'' = [] :=
        ih (fun x hx => hp x (List.mem_cons_of_mem a hx)) (okWS_tail hok)
      simp at this

theorem okWS_ws_no_term :
    ∀ {p : List Char} {c : Char} {t : List Char},
      (∀ a ∈ p, isWS a = true) → p ≠ [] → okWS (p ++ c :: t) = true →
      isTerm c = false := by
  intro p
  induction p with
  | nil => intro c t _ hne _; exact absurd rfl hne
  | cons a p' ih =>
    intro c t hp _ hok
    cases p' with
    | nil =>
      have ha : isWS a = true := hp a (by simp)
      have h1 := (okWS_pair (x := a) (y := c) (r := t) (by simpa using hok)).1
      rcases h1 with h1 | h1
      · rw [ha] at h1; exact absurd h1 (by simp)
      · exact h1
    | cons b p'' =>
      exact ih (fun x hx => hp x (List.mem_cons_of_mem a hx)) (by simp)
        (okWS_tail (by simpa using hok))

theorem stripAux_id :
    ∀ (l p : List Char), (∀ a ∈ p, isWS a = true) → okWS (p ++ l) = true →
      stripAux p l = p ++ l := by
  intro l
  induction l with
  | nil =>
    intro p hp hok
    have : p = [] := okWS_all_ws_nil hp (by simpa using hok)
    subst this; rfl
  | cons c cs ih =>
    intro p hp hok
    by_cases hw : isWS c = true
    · simp only [stripAux, hw, if_true]
      have h1 : stripAux (p ++ [c]) cs = (p ++ [c]) ++ cs := by
        refine ih (p ++ [c]) ?_ ?_
        · intro a ha
          rcases List.mem_append.mp ha with h' | h'
          · exact hp a h'
          · simp at h'; subst h'; exact hw
        · simpa [List.append_assoc] using hok
      rw [h1]; simp
    · by_cases ht : isTerm c = true
      · have hpn : p = [] := by
          by_cases hne : p = []
          · exact hne
          · exact absurd ht (by simp [okWS_ws_no_term hp hne hok])
        subst hpn
        simp only [stripAux, hw, ht, Bool.false_eq_true, if_false, if_true,
          List.nil_append]
        rw [ih [] (by simp) (by simpa using okWS_tail (by simpa using hok))]
        rfl
      · simp only [stripAux, hw, ht, Bool.false_eq_true, if_false]
        rw [ih [] (by simp)
          (by simpa using okWS_tail (okWS_append_right (l := c :: cs) hok))]
        rfl

theorem stripAux_head :
    ∀ (l p : List Char), (p ++ l).head? ≠ some bomChar →
      (stripAux p l).head? ≠ some bomChar := by
  intro l
  induction l with
  | nil => intro p _; simp [stripAux]
  | cons c cs ih =>
    intro p hp
    by_cases hw : isWS c = true
    · simp only [stripAux, hw, if_true]
      exact ih (p ++ [c]) (by simpa [List.append_assoc] using hp)
    · by_cases ht : isTerm c = true
      · simp only [stripAux, hw, ht, Bool.false_eq_true, if_false, if_true]
        simpa using ne_bom_of_isTerm ht
      · simp only [stripAux, hw, ht, Bool.false_eq_true, if_false]
        cases p with
        | nil => simpa using hp
        | cons a p' => simpa using hp

theorem stripAux_plain_append {a : List Char} (u : List Char)
    (ha : ∀ c ∈ a, isWS c = false ∧ isTerm c = false) :
    stripAux [] (a ++ '\n' :: u) = a ++ '\n' :: stripAux [] u := by
  induction a with
  | nil => simp [stripAux, isWS, isTerm]
  | cons c a' ih =>
    have hc := ha c (by simp)
    simp only [List.cons_append, stripAux, hc.1, hc.2, Bool.false_eq_true,
      if_false, List.nil_append, List.append_eq]
    rw [ih (fun x hx => ha x (List.mem_cons_of_mem c hx))]

theorem stripAux_cons_plain {c : Char} (hw : isWS c = false)
    (ht : isTerm c = false) (l : List Char) :
    stripAux [] (c :: l) = c :: stripAux [] l := by
  simp [stripAux, hw, ht]

theorem stripAux_ws_plain {c d : Char} (hw : isWS c = true) (hd : isWS d = false)
    (ht : isTerm d = false) (l : List Char) :
    stripAux [] (c :: d :: l) = c :: d :: stripAux [] l := by
  simp [stripAux, hw, hd, ht]

theorem stripAux_set_line {v : List Char} (u : List Char) (hne : v ≠ [])
    (hv : ∀ c ∈ v, isWS c = false ∧ isTerm c = false) :
    stripAux [] ("SET ".data ++ v ++ '\n' :: u)
      = "SET ".data ++ v ++ '\n' :: stripAux [] u := by
  cases v with
  | nil => exact absurd rfl hne
  | cons vh vt =>
    have hvh := hv vh (by simp)
    have h1 : stripAux [] (vt ++ '\n' :: u) = vt ++ '\n' :: stripAux [] u :=
      stripAux_plain_append u (fun x hx => hv x (List.mem_cons_of_mem vh hx))
    have e1 : "SET ".data ++ (vh :: vt) ++ '\n' :: u
        = 'S' :: 'E' :: 'T' :: ' ' :: vh :: (vt ++ '\n' :: u) := rfl
    rw [e1,
      stripAux_cons_plain (by decide) (by decide),
      stripAux_cons_plain (by decide) (by decide),
      stripAux_cons_plain (by decide) (by decide),
      stripAux_ws_plain (by decide) hvh.1 hvh.2,
      h1]
    rfl

/-! #### `dropTrailLF` and `ensureFinalNewline` -/

theorem dropTrailLF_cons_of_nil {cs : List Char} (c : Char)
    (e : dropTrailLF cs = []) :
    dropTrailLF (c :: cs) = if c = '\n' then [] else [c] := by
  simp only [dropTrailLF, e]

theorem dropTrailLF_cons_of_cons {cs : List Char} (c : Char) {d : Char}
    {r : List Char} (e : dropTrailLF cs = d :: r) :
    dropTrailLF (c :: cs) = c :: d :: r := by
  simp only [dropTrailLF, e]

theorem dropTrailLF_mem {a : Char} :
    ∀ {l : List Char}, a ∈ dropTrailLF l → a ∈ l := by
  intro l
  induction l with
  | nil => intro h; simp [dropTrailLF] at h
  | cons c cs ih =>
    intro h
    cases e : dropTrailLF cs with
    | nil =>
      rw [dropTrailLF_cons_of_nil c e] at h
      by_cases hc : c = '\n'
      · rw [if_pos hc] at h; simp at h
      · rw [if_neg hc] at h
        simp at h; subst h; exact List.mem_cons_self _ _
    | cons d r =>
      rw [dropTrailLF_cons_of_cons c e] at h
      rcases List.mem_cons.mp h with h' | h'
      · subst h'; exact List.mem_cons_self _ _
      · exact List.mem_cons_of_mem c (ih (e ▸ h'))

theorem dropTrailLF_eq_nil :
    ∀ {l : List Char}, dropTrailLF l = [] → ∀ a ∈ l, a = '\n' := by
  intro l
  induction l with
  | nil => intro _ a ha; simp at ha
  | cons c cs ih =>
    intro h a ha
    cases e : dropTrailLF cs with
    | nil =>
      rw [dropTrailLF_cons_of_nil c e] at h
      by_cases hc : c = '\n'
      · rcases List.mem_cons.mp ha with h' | h'
        · subst h'; exact hc
        · exact ih e a h'
      · rw [if_neg hc] at h; simp at h
    | cons d r =>
      rw [dropTrailLF_cons_of_cons c e] at h; simp at h

theorem dropTrailLF_head :
    ∀ (l : List Char), dropTrailLF l = [] ∨ (dropTrailLF l).head? = l.head? := by
  intro l
  cases l with
  | nil => exact Or.inl rfl
  | cons c cs =>
    cases e : dropTrailLF cs with
    | nil =>
      by_cases hc : c = '\n'
      · exact Or.inl (by rw [dropTrailLF_cons_of_nil c e, if_pos hc])
      · exact Or.inr (by rw [dropTrailLF_cons_of_nil c e, if_neg hc]; rfl)
    | cons d r =>
      exact Or.inr (by rw [dropTrailLF_cons_of_cons c e]; rfl)

theorem dropTrailLF_single {c : Char} (hc : c ≠ '\n') :
    dropTrailLF [c] = [c] := by
  have e : dropTrailLF ([] : List Char) = [] := rfl
  rw [dropTrailLF_cons_of_nil c e, if_neg hc]

theorem dropTrailLF_getLast :
    ∀ {l : List Char}, (dropTrailLF l).getLast? ≠ some '\n' := by
  intro l
  induction l with
  | nil => simp [dropTrailLF]
  | cons c cs ih =>
    cases e : dropTrailLF cs with
    | nil =>
      rw [dropTrailLF_cons_of_nil c e]
      by_cases hc : c = '\n'
      · rw [if_pos hc]; simp
      · rw [if_neg hc]
        intro hh
        exact hc (by simpa using hh)
    | cons d r =>
      rw [dropTrailLF_cons_of_cons c e, List.getLast?_cons_cons]
      rw [← e]
      exact ih

theorem dropTrailLF_id_of_not_mem :
    ∀ {l : List Char}, '\n' ∉ l → dropTrailLF l = l := by
  intro l
  induction l with
  | nil => intro _; rfl
  | cons c cs ih =>
    intro h
    have hc : c ≠ '\n' := fun hc => h (hc ▸ List.mem_cons_self c cs)
    have h2 : dropTrailLF cs = cs := ih (fun hm => h (List.mem_cons_of_mem c hm))
    cases cs with
    | nil => exact dropTrailLF_single hc
    | cons d r => rw [dropTrailLF_cons_of_cons c h2]

theorem dropTrailLF_idem :
    ∀ {l : List Char}, dropTrailLF (dropTrailLF l) = dropTrailLF l := by
  intro l
  induction l with
  | nil => rfl
  | cons c cs ih =>
    cases e : dropTrailLF cs with
    | nil =>
      rw [dropTrailLF_cons_of_nil c e]
      by_cases hc : c = '\n'
      · rw [if_pos hc]; rfl
      · rw [if_neg hc]; exact dropTrailLF_single hc
    | cons d r =>
      rw [dropTrailLF_cons_of_cons c e]
      rw [e] at ih
      exact dropTrailLF_cons_of_cons c ih

theorem dropTrailLF_append_nil {b : List Char} (a : List Char)
    (h : dropTrailLF b = []) : dropTrailLF (a ++ b) = dropTrailLF a := by
  induction a with
  | nil => simpa using h
  | cons c a' ih =>
    cases e : dropTrailLF a' with
    | nil =>
      have e2 : dropTrailLF (a' ++ b) = [] := ih.trans e
      rw [List.cons_append, dropTrailLF_cons_of_nil c e2,
        dropTrailLF_cons_of_nil c e]
    | cons d r =>
      have e2 : dropTrailLF (a' ++ b) = d :: r := ih.trans e
      rw [List.cons_append, dropTrailLF_cons_of_cons c e2,
        dropTrailLF_cons_of_cons c e]

theorem dropTrailLF_append_cons {b : List Char} (a : List Char)
    (h : dropTrailLF b ≠ []) : dropTrailLF (a ++ b) = a ++ dropTrailLF b := by
  induction a with
  | nil => rfl
  | cons c a' ih =>
    cases e : dropTrailLF (a' ++ b) with
    | nil =>
      rw [ih] at e
      rcases List.append_eq_nil.mp e with ⟨-, h2⟩
      exact absurd h2 h
    | cons d r =>
      rw [List.cons_append, dropTrailLF_cons_of_cons c e, ← e, ih]
      rfl

theorem ensure_idem {z : List Char} :
    ensureFinalNewline (dropTrailLF z ++ ['\n']) = dropTrailLF z ++ ['\n'] := by
  unfold ensureFinalNewline
  rw [dropTrailLF_append_nil _ (by decide), dropTrailLF_idem]

theorem ensure_head {z : List Char} (h : z.head? ≠ some bomChar) :
    (ensureFinalNewline z).head? ≠ some bomChar := by
  unfold ensureFinalNewline
  cases e : dropTrailLF z with
  | nil =>
    intro hh
    exact absurd (Option.some.inj hh) (by decide)
  | cons x xs =>
    rcases dropTrailLF_head z with h1 | h1
    · exact absurd (h1.symm.trans e) (by simp)
    · rw [e] at h1
      intro hh
      have hx : x = bomChar := by simpa using hh
      exact h (by rw [← h1, hx]; rfl)

theorem okWS_ensure :
    ∀ {z : List Char}, okWS z = true → okWS (dropTrailLF z ++ ['\n']) = true := by
  intro z
  induction z with
  | nil => intro _; decide
  | cons c cs ih =>
    intro h
    cases e : dropTrailLF cs with
    | nil =>
      rw [dropTrailLF_cons_of_nil c e]
      by_cases hc : c = '\n'
      · rw [if_pos hc]; decide
      · rw [if_neg hc]
        have hwc : isWS c = false := by
          cases cs with
          | nil => simpa [okWS] using h
          | cons d r =>
            have hd : d = '\n' := dropTrailLF_eq_nil e d (List.mem_cons_self _ _)
            rcases (okWS_pair h).1 with h1 | h1
            · exact h1
            · rw [hd] at h1; exact absurd h1 (by decide)
        exact okWS_cons hwc (by decide)
    | cons d r =>
      rw [dropTrailLF_cons_of_cons c e]
      have hih : okWS ((d :: r) ++ ['\n']) = true := by
        rw [← e]; exact ih (okWS_tail h)
      have hd : cs.head? = some d := by
        rcases dropTrailLF_head cs with h1 | h1
        · exact absurd (h1.symm.trans e) (by simp)
        · rw [e] at h1; exact h1.symm
      cases cs with
      | nil => simp at hd
      | cons b bs =>
        have hb : b = d := by simpa using hd
        subst hb
        rcases (okWS_pair h).1 with h1 | h1
        · exact okWS_cons h1 hih
        · exact okWS_cons_of_next h1 hih

theorem takeWhile_append_stop {p : Char → Bool} {a : List Char} {x : Char}
    (u : List Char) (ha : ∀ c ∈ a, p c = true) (hx : p x = false) :
    (a ++ x :: u).takeWhile p = a := by
  induction a with
  | nil => simp [List.takeWhile_cons, hx]
  | cons c a' ih =>
    have hc := ha c (List.mem_cons_self _ _)
    simp [List.takeWhile_cons, hc,
      ih (fun y hy => ha y (List.mem_cons_of_mem c hy))]

theorem firstLineOf_ensure {a : List Char} (u : List Char) (h : '\n' ∉ a) :
    firstLineOf (ensureFinalNewline (a ++ '\n' :: u)) = a := by
  have hp : ∀ c ∈ a, (!(c == '\n')) = true := by
    intro c hc
    have hne : c ≠ '\n' := fun e => h (e ▸ hc)
    simp [hne]
  have hnl : (!(('\n' : Char) == '\n')) = false := by decide
  have hsplit : a ++ '\n' :: u = (a ++ ['\n']) ++ u := by simp
  unfold ensureFinalNewline firstLineOf
  cases e : dropTrailLF u with
  | nil =>
    rw [hsplit, dropTrailLF_append_nil _ e,
      dropTrailLF_append_nil _ (by decide), dropTrailLF_id_of_not_mem h]
    exact takeWhile_append_stop [] hp hnl
  | cons d r =>
    rw [hsplit, dropTrailLF_append_cons _ (by rw [e]; simp), e]
    have hshape : ((a ++ ['\n']) ++ d :: r) ++ ['\n']
        = a ++ '\n' :: ((d :: r) ++ ['\n']) := by simp
    rw [hshape]
    exact takeWhile_append_stop _ hp hnl

/-! #### End-to-end facts about `normalizeContent` -/

theorem normalize_not_cr (x : List Char) : '\r' ∉ normalizeContent x := by
  unfold normalizeContent ensureFinalNewline stripTrailingWS
  intro hmem
  rcases List.mem_append.mp hmem with h | h
  · rcases mem_stripAux _ [] (dropTrailLF_mem h) with h3 | h3
    · simp at h3
    · exact replaceCR_not_mem _ h3
  · exact absurd (List.mem_singleton.mp h) (by decide : ('\r' : Char) ≠ '\n')

theorem normalize_okWS (x : List Char) : okWS (normalizeContent x) = true := by
  unfold normalizeContent ensureFinalNewline stripTrailingWS
  exact okWS_ensure (stripAux_okWS _ [] (by simp))

theorem normalize_ends_one_lf (x : List Char) :
    ∃ w, normalizeContent x = w ++ ['\n'] ∧ w.getLast? ≠ some '\n' :=
  ⟨dropTrailLF (stripTrailingWS (replaceCR (replaceCRLF (stripBOM x)))), rfl,
    dropTrailLF_getLast⟩

theorem normalize_head {x : List Char} (h : x.take 2 ≠ [bomChar, bomChar]) :
    (normalizeContent x).head? ≠ some bomChar := by
  unfold normalizeContent stripTrailingWS
  exact ensure_head (stripAux_head _ []
    (by simpa using replaceCR_head (replaceCRLF_head (stripBOM_head h))))

/-- C2: every `normalizeContent` output contains no carriage return, has
no space or tab immediately before a line terminator nor at the end, and
ends in exactly one linefeed (a final `'\n'` whose predecessor, if any,
is not `'\n'`), whatever the input. -/
theorem claim_C2_canonical_output (x : List Char) :
    '\r' ∉ normalizeContent x ∧ okWS (normalizeContent x) = true ∧
    ∃ w, normalizeContent x = w ++ ['\n'] ∧ w.getLast? ≠ some '\n' :=
  ⟨normalize_not_cr x, normalize_okWS x, normalize_ends_one_lf x⟩

/-- C1 (counterexample): `normalizeContent` is not idempotent.  On the
input made of two byte-order marks, the first pass strips one BOM and the
second pass strips the other, so the two results differ. -/
theorem claim_C1_counterexample :
    normalizeContent (normalizeContent [bomChar, bomChar])
      ≠ normalizeContent [bomChar, bomChar] := by decide

/-- C1 (amended): `normalizeContent` is idempotent on every input that
does not begin with two byte-order-mark characters.  (The unamended claim
fails because the BOM strip removes only one leading BOM, so an input
starting with two BOMs yields an output starting with a BOM, which a
second pass removes.) -/
theorem claim_C1_idempotent_amended (x : List Char)
    (h : x.take 2 ≠ [bomChar, bomChar]) :
    normalizeContent (normalizeContent x) = normalizeContent x := by
  have hR : '\r' ∉ normalizeContent x := normalize_not_cr x
  have hOk : okWS (normalizeContent x) = true := normalize_okWS x
  have h1 : stripBOM (normalizeContent x) = normalizeContent x :=
    stripBOM_id (normalize_head h)
  have h2 : replaceCRLF (normalizeContent x) = normalizeContent x :=
    replaceCRLF_id hR
  have h3 : replaceCR (normalizeContent x) = normalizeContent x :=
    replaceCR_id hR
  have h4 : stripTrailingWS (normalizeContent x) = normalizeContent x := by
    unfold stripTrailingWS
    exact stripAux_id _ [] (by simp) (by simpa using hOk)
  have h5 : ensureFinalNewline (normalizeContent x) = normalizeContent x :=
    ensure_idem
  calc normalizeContent (normalizeContent x)
      = ensureFinalNewline (stripTrailingWS (replaceCR (replaceCRLF
          (stripBOM (normalizeContent x))))) := rfl
    _ = normalizeContent x := by rw [h1, h2, h3, h4, h5]

theorem claim_C1_witness :
    normalizeContent (normalizeContent (bomChar :: "hello \r\nworld\r".data))
      = normalizeContent (bomChar :: "hello \r\nworld\r".data) :=
  claim_C1_idempotent_amended _ (by decide)

/-! #### The `SET` rewrite against a byte-order mark -/

theorem set_chars_not_term : ∀ c ∈ "SET ".data, isTerm c = false := by decide

theorem replaceCR_cons_ne {c : Char} (h : c ≠ '\r') (l : List Char) :
    replaceCR (c :: l) = c :: replaceCR l := by
  simp [replaceCR, h]

theorem setRepAux_cons (atStart : Bool) (c : Char) (cs : List Char) :
    setRepAux atStart (c :: cs) =
      if atStart ∧ (c :: cs).take 4 = setToken then
        utf8Line ++ ((c :: cs).drop 4).dropWhile notTerm
      else if isTerm c then c :: setRepAux true cs
      else c :: setRepAux false cs := rfl

theorem setRepAux_false_line {a : List Char} (z : List Char)
    (ha : ∀ c ∈ a, isTerm c = false) :
    setRepAux false (a ++ '\n' :: z) = a ++ '\n' :: setRepAux true z := by
  induction a with
  | nil => simp [setRepAux, isTerm]
  | cons c a' ih =>
    have hc := ha c (List.mem_cons_self _ _)
    rw [List.cons_append, setRepAux_cons,
      if_neg (by rintro ⟨h1, -⟩; exact absurd h1 (by decide)),
      if_neg (by rw [hc]; exact Bool.false_ne_true),
      ih (fun y hy => ha y (List.mem_cons_of_mem c hy))]
    rfl

theorem setReplace_bom_line {v : List Char} (z : List Char)
    (hv : ∀ c ∈ v, isTerm c = false) :
    setReplace (bomChar :: "SET ".data ++ v ++ '\n' :: z)
      = bomChar :: "SET ".data ++ v ++ '\n' :: setRepAux true z := by
  have hcond : ¬(true = true ∧
      (bomChar :: ("SET ".data ++ v ++ '\n' :: z)).take 4 = setToken) := by
    rintro ⟨-, hc⟩
    have h2 : some bomChar = some 'S' :=
      (congrArg List.head? hc).trans (by decide)
    exact absurd (Option.some.inj h2) (by decide)
  have hSv : ∀ c ∈ "SET ".data ++ v, isTerm c = false := by
    intro c hc
    rcases List.mem_append.mp hc with hc | hc
    · exact set_chars_not_term c hc
    · exact hv c hc
  show setRepAux true (bomChar :: ("SET ".data ++ v ++ '\n' :: z)) = _
  rw [setRepAux_cons, if_neg hcond,
    if_neg (by rw [(by decide : isTerm bomChar = false)]; exact Bool.false_ne_true)]
  rw [show "SET ".data ++ v ++ '\n' :: z = ("SET ".data ++ v) ++ '\n' :: z
    from by simp]
  rw [setRepAux_false_line z hSv]
  simp

theorem norm_bom_set_line {v : List Char} (t : List Char) (hne : v ≠ [])
    (hv : ∀ c ∈ v, isWS c = false ∧ isTerm c = false) :
    firstLineOf (normalizeContent (bomChar :: "SET ".data ++ v ++ '\n' :: t))
      = "SET ".data ++ v := by
  have hvr : '\r' ∉ "SET ".data ++ v := by
    intro hm
    rcases List.mem_append.mp hm with hm | hm
    · exact absurd (set_chars_not_term _ hm) (by decide)
    · exact absurd (hv _ hm).2 (by decide)
  have hnl : '\n' ∉ "SET ".data ++ v := by
    intro hm
    rcases List.mem_append.mp hm with hm | hm
    · exact absurd (set_chars_not_term _ hm) (by decide)
    · exact absurd (hv _ hm).2 (by decide)
  calc firstLineOf (normalizeContent (bomChar :: "SET ".data ++ v ++ '\n' :: t))
      = firstLineOf (ensureFinalNewline (stripAux []
          (replaceCR (replaceCRLF ("SET ".data ++ v ++ '\n' :: t))))) := rfl
    _ = firstLineOf (ensureFinalNewline (stripAux []
          (replaceCR (("SET ".data ++ v) ++ '\n' :: replaceCRLF t)))) := by
        rw [show "SET ".data ++ v ++ '\n' :: t
            = ("SET ".data ++ v) ++ '\n' :: t from by simp,
          replaceCRLF_append _ hvr, replaceCRLF_cons_ne (by decide)]
    _ = firstLineOf (ensureFinalNewline (stripAux []
          (("SET ".data ++ v) ++ '\n' :: replaceCR (replaceCRLF t)))) := by
        rw [replaceCR_append, replaceCR_id hvr, replaceCR_cons_ne (by decide)]
    _ = firstLineOf (ensureFinalNewline (("SET ".data ++ v)
          ++ '\n' :: stripAux [] (replaceCR (replaceCRLF t)))) := by
        rw [show ("SET ".data ++ v) ++ '\n' :: replaceCR (replaceCRLF t)
            = "SET ".data ++ v ++ '\n' :: replaceCR (replaceCRLF t) from by simp,
          stripAux_set_line _ hne hv,
          show "SET ".data ++ v ++ '\n' :: stripAux [] (replaceCR (replaceCRLF t))
            = ("SET ".data ++ v) ++ '\n' :: stripAux [] (replaceCR (replaceCRLF t))
            from by simp]
    _ = "SET ".data ++ v := firstLineOf_ensure _ hnl

/-- C10: the `SET` rewrite runs on the raw fetched text, before
normalization strips the byte-order mark, and `^` does not match after a
BOM; so when the affix content starts with a BOM immediately followed by
a `SET <value>` line, that line is left unrewritten and the persisted
(normalized) `index.aff` still begins with the original declaration. -/
theorem claim_C10_bom_blocks_set_rewrite (v z : List Char) (hne : v ≠ [])
    (hv : ∀ c ∈ v, isWS c = false ∧ isTerm c = false) :
    firstLineOf (processedAff (bomChar :: "SET ".data ++ v ++ '\n' :: z))
      = "SET ".data ++ v := by
  unfold processedAff
  rw [setReplace_bom_line z (fun c hc => (hv c hc).2)]
  exact norm_bom_set_line _ hne hv

theorem claim_C10_witness :
    firstLineOf (processedAff (bomChar ::
        "SET ".data ++ "ISO8859-1".data ++ '\n' :: "FLAG UTF-8\n".data))
      = "SET ".data ++ "ISO8859-1".data :=
  claim_C10_bom_blocks_set_rewrite "ISO8859-1".data "FLAG UTF-8\n".data
    (by decide) (by decide)

/-- C3: when the affix content's first line is `SET ISO8859-1`, the
persisted `index.aff` has exactly that line replaced by `SET UTF-8` — the
rewrite changes that line only, and the persisted text is the
normalization of the input with just that line swapped. -/
theorem claim_C3_set_line_rewritten (z : List Char) :
    setReplace ("SET ISO8859-1".data ++ '\n' :: z)
      = "SET UTF-8".data ++ '\n' :: z ∧
    processedAff ("SET ISO8859-1".data ++ '\n' :: z)
      = normalizeContent ("SET UTF-8".data ++ '\n' :: z) := by
  have h : setReplace ("SET ISO8859-1".data ++ '\n' :: z)
      = "SET UTF-8".data ++ '\n' :: z := rfl
  exact ⟨h, by rw [processedAff, h]⟩

/-- C5: if the destination already holds `index.dic`, `processDictionary`
performs exactly one `existsSync` check on that file and returns: no
fetch, no write, no directory creation, no other existence check, no
escaping exception. -/
theorem claim_C5_skip_when_present (root : String) (w : World) (d : Dict)
    (h : w.fileExists (destDirOf root d ++ "/index.dic") = true) :
    processDictionary root w d
      = ([Ev.stat (destDirOf root d ++ "/index.dic")], none) := by
  simp [processDictionary, h]

theorem claim_C5_witness :
    processDictionary "root" wAll dictA = ([Ev.stat "root/aa/index.dic"], none) :=
  (claim_C5_skip_when_present "root" wAll dictA rfl).trans (by decide)

/-- C4: when the word-list fetch does not return a successful response,
`processDictionary` performs no write at all (in particular none of
`index.aff`, `.spdx`, `.source`, `license`), and the batch loop still
processes every other descriptor exactly as it would alone. -/
theorem claim_C4_dic_failure_no_writes (root : String) (w : World) (d : Dict)
    (h : ∀ b, w.fetch (dicUrlOf d) ≠ FetchRes.ok b) :
    ((processDictionary root w d).1.all (fun e => !(isWriteEv e)) = true) ∧
    ∀ ds₁ ds₂, runBatch root w (ds₁ ++ d :: ds₂)
      = runBatch root w ds₁ ++ (processDictionary root w d).1 ++ runBatch root w ds₂ := by
  constructor
  · by_cases hex : w.fileExists (destDirOf root d ++ "/index.dic")
    · simp [processDictionary, hex, isWriteEv]
    · cases hmk : w.mkdirFail (destDirOf root d) with
      | some msg => simp [processDictionary, hex, hmk, isWriteEv]
      | none =>
        cases hf : w.fetch (dicUrlOf d) with
        | ok b => exact absurd hf (h b)
        | httpStatus s => simp [processDictionary, hex, hmk, hf, isWriteEv]
        | netFail m => simp [processDictionary, hex, hmk, hf, isWriteEv]
  · intro ds₁ ds₂
    simp [runBatch_append, runBatch]

theorem claim_C4_witness :
    ((processDictionary "root" wNoDic dictA).1.all (fun e => !(isWriteEv e)) = true) ∧
    runBatch "root" wNoDic ([dictB] ++ dictA :: [dictC])
      = runBatch "root" wNoDic [dictB] ++ (processDictionary "root" wNoDic dictA).1
        ++ runBatch "root" wNoDic [dictC] := by
  have h := claim_C4_dic_failure_no_writes "root" wNoDic dictA
    (fun b hb => by simp [wNoDic] at hb)
  exact ⟨h.1, h.2 [dictB] [dictC]⟩

/-- C6: with the word-list and affix fetches succeeding and the license
fetch not returning a successful response, `processDictionary` performs
exactly the calls that persist `index.dic`, `index.aff`, the `.spdx`
stamp (license identifier plus one linefeed) and the `.source` stamp,
fetches the license, writes no `license` file, and lets no exception
escape (the license failure is swallowed). -/
theorem claim_C6_license_optional (root : String) (w : World) (d : Dict)
    (b1 b2 : List Char)
    (hex : w.fileExists (destDirOf root d ++ "/index.dic") = false)
    (hmk : w.mkdirFail (destDirOf root d) = none)
    (hwr : ∀ p, w.writeFail p = none)
    (h1 : w.fetch (dicUrlOf d) = FetchRes.ok b1)
    (h2 : w.fetch (affUrlOf d) = FetchRes.ok b2)
    (h3 : ∀ b, w.fetch (licUrlOf d) ≠ FetchRes.ok b) :
    processDictionary root w d =
      ([Ev.stat (destDirOf root d ++ "/index.dic"),
        Ev.mkdir (destDirOf root d),
        Ev.fetch (dicUrlOf d),
        Ev.write (destDirOf root d ++ "/index.dic") (normalizeContent b1),
        Ev.fetch (affUrlOf d),
        Ev.write (destDirOf root d ++ "/index.aff") (processedAff b2),
        Ev.write (destDirOf root d ++ "/.spdx") (d.license.data ++ ['\n']),
        Ev.write (destDirOf root d ++ "/.source") sourceStamp,
        Ev.fetch (licUrlOf d)], none) := by
  cases hl : w.fetch (licUrlOf d) with
  | ok b => exact absurd hl (h3 b)
  | httpStatus s => simp [processDictionary, hex, hmk, hwr, h1, h2, hl]
  | netFail m => simp [processDictionary, hex, hmk, hwr, h1, h2, hl]

theorem claim_C6_witness :
    processDictionary "root" wLicFail dictA =
      ([Ev.stat "root/aa/index.dic",
        Ev.mkdir "root/aa",
        Ev.fetch "https://raw.githubusercontent.com/LibreOffice/dictionaries/master/aa_AA/aa_AA.dic",
        Ev.write "root/aa/index.dic" "word\n".data,
        Ev.fetch "https://raw.githubusercontent.com/LibreOffice/dictionaries/master/aa_AA/aa_AA.aff",
        Ev.write "root/aa/index.aff" "word\n".data,
        Ev.write "root/aa/.spdx" "MIT\n".data,
        Ev.write "root/aa/.source" "https://github.com/LibreOffice/dictionaries\n".data,
        Ev.fetch "https://raw.githubusercontent.com/LibreOffice/dictionaries/master/aa_AA/COPYING"],
       none) :=
  (claim_C6_license_optional "root" wLicFail dictA "word\n".data "word\n".data
    rfl rfl (fun _ => rfl) (by decide) (by decide)
    (fun b hb => by simp [wLicFail] at hb)).trans (by decide)

/-- C8: an exception escaping `processDictionary` for one descriptor is
caught by the loop of `main`, so the batch's calls are still the
concatenation of every descriptor's own calls — the descriptors before
and after the failing one are fully processed. -/
theorem claim_C8_exception_isolated (root : String) (w : World)
    (ds₁ : List Dict) (d : Dict) (ds₂ : List Dict)
    (_h : (processDictionary root w d).2.isSome = true) :
    runBatch root w (ds₁ ++ d :: ds₂)
      = runBatch root w ds₁ ++ (processDictionary root w d).1 ++ runBatch root w ds₂ := by
  simp [runBatch_append, runBatch]

theorem claim_C8_witness :
    runBatch "root" wSpdxFail ([dictA] ++ dictB :: [dictC])
      = runBatch "root" wSpdxFail [dictA] ++ (processDictionary "root" wSpdxFail dictB).1
        ++ runBatch "root" wSpdxFail [dictC] :=
  claim_C8_exception_isolated "root" wSpdxFail [dictA] dictB [dictC] (by decide)

/-- C7: without overrides the resolved word-list and affix filenames are
the folder with `.dic` / `.aff` appended — the `includes('_')`
conditional is dead — and the remote paths are
`{base}/{folder}/{folder}.dic` and `{base}/{folder}/{folder}.aff`. -/
theorem claim_C7_default_filenames (d : Dict)
    (h1 : d.dicPath = none) (h2 : d.affPath = none) :
    resolveDicFile d = d.folder ++ ".dic" ∧
    resolveAffFile d = d.folder ++ ".aff" ∧
    dicUrlOf d = LIBREOFFICE_BASE_URL ++ "/" ++ d.folder ++ "/" ++ (d.folder ++ ".dic") ∧
    affUrlOf d = LIBREOFFICE_BASE_URL ++ "/" ++ d.folder ++ "/" ++ (d.folder ++ ".aff") := by
  simp [resolveDicFile, resolveAffFile, dicUrlOf, affUrlOf, h1, h2]

theorem claim_C7_witness :
    dicUrlOf xxDict
      = "https://raw.githubusercontent.com/LibreOffice/dictionaries/master/xx_YY/xx_YY.dic" ∧
    affUrlOf xxDict
      = "https://raw.githubusercontent.com/LibreOffice/dictionaries/master/xx_YY/xx_YY.aff" := by
  have h := claim_C7_default_filenames xxDict rfl rfl
  exact ⟨h.2.2.1.trans (by decide), h.2.2.2.trans (by decide)⟩

/-- C9: the catalog's `code` values are pairwise distinct, hence for any
dictionaries root the destination directories are pairwise distinct. -/
theorem claim_C9_codes_nodup :
    (LIBREOFFICE_DICTIONARIES.map Dict.code).Nodup ∧
    ∀ root : String, (LIBREOFFICE_DICTIONARIES.map (destDirOf root)).Nodup := by
  have hcodes : (LIBREOFFICE_DICTIONARIES.map Dict.code).Nodup := by decide
  refine ⟨hcodes, fun root => ?_⟩
  have hinj : Function.Injective (fun c : String => root ++ "/" ++ c) := by
    intro a b hab
    have hd : (root ++ "/").data ++ a.data = (root ++ "/").data ++ b.data := by
      have := congrArg String.data hab
      simpa [String.data_append] using this
    exact String.ext (List.append_cancel_left hd)
  have hmap : LIBREOFFICE_DICTIONARIES.map (destDirOf root)
      = (LIBREOFFICE_DICTIONARIES.map Dict.code).map (fun c => root ++ "/" ++ c) := by
    rw [List.map_map]; rfl
  rw [hmap]
  exact hcodes.map hinj

end Vandrite
